import Mathlib

/-!
Verification development for the `flow` HTTP router (Go, `flow.go`).

The Go source is shallowly embedded: the mutable radix tree (`routeTree`)
becomes a functional inductive tree, pointer mutation during registration
becomes functional update, Go maps become association lists whose insert
replaces an existing key, and `ServeHTTP`'s side effects become an
`Outcome` value recording which handler runs and with what parameters and
`Allow` contents.  Handlers are kept abstract in a type parameter `H`
(Go's `http.Handler` is opaque to the router).
-/

namespace Flow

/-! ### Model of the external `regexp` engine

The router stores compiled patterns (`regexp.Regexp`) on parameter nodes
and consults them with `MatchString`, which reports whether the string
*contains* any match of the pattern (search semantics, not a full-string
match).  We model the fragment of the pattern language the development
needs: character ranges, concatenation, alternation, star, and anchors
`^`/`$` occurring at the ends of the pattern.  `matchesExact` is a
Brzozowski-derivative matcher for the anchor-free body; `matchString`
adds the containment search and the top-level anchors.
-/

/-- Anchor-free regular expressions over characters. -/
inductive RE where
  | emp : RE
  | eps : RE
  | chr : Char → RE
  | range : Char → Char → RE
  | alt : RE → RE → RE
  | seq : RE → RE → RE
  | star : RE → RE
deriving DecidableEq, Repr

/-- Does the expression accept the empty string? -/
def RE.nullable : RE → Bool
  | .emp => false
  | .eps => true
  | .chr _ => false
  | .range _ _ => false
  | .alt a b => a.nullable || b.nullable
  | .seq a b => a.nullable && b.nullable
  | .star _ => true

/-- Brzozowski derivative with respect to one character. -/
def RE.deriv : RE → Char → RE
  | .emp, _ => .emp
  | .eps, _ => .emp
  | .chr c, d => if c = d then .eps else .emp
  | .range lo hi, d => if lo ≤ d ∧ d ≤ hi then .eps else .emp
  | .alt a b, d => .alt (a.deriv d) (b.deriv d)
  | .seq a b, d =>
      if a.nullable then .alt (.seq (a.deriv d) b) (b.deriv d)
      else .seq (a.deriv d) b
  | .star a, d => .seq (a.deriv d) (.star a)

/-- The expression matches exactly this character list. -/
def RE.matchesExact (r : RE) (s : List Char) : Bool :=
  (s.foldl RE.deriv r).nullable

/-- A compiled pattern: an anchor-free body plus the information whether
the source pattern began with `^` and/or ended with `$`. -/
structure Regexp where
  anchorStart : Bool
  anchorEnd : Bool
  body : RE
deriving DecidableEq, Repr

/-- Model of Go `regexp.(*Regexp).MatchString`: the string contains a
match of the pattern.  Unanchored ends may cut off any amount of the
string; an anchor pins the corresponding end. -/
def Regexp.matchString (re : Regexp) (s : String) : Bool :=
  let cs := s.data
  let starts := if re.anchorStart then [0] else List.range (cs.length + 1)
  starts.any fun i =>
    let tl := cs.drop i
    let lens := if re.anchorEnd then [tl.length] else List.range (tl.length + 1)
    lens.any fun j => re.body.matchesExact (tl.take j)

/-- The character class `[0-9]`. -/
def digitRE : RE := RE.range '0' '9'

/-- The body of `[0-9]{2}`: two digits in sequence. -/
def twoDigits : RE := RE.seq digitRE digitRE

/-- Model of `regexp.MustCompile` restricted to the constraint pattern
texts that occur in this development's concrete examples; other texts
compile to a pattern that never matters to any theorem below. -/
def rxCompileEx : String → Regexp
  | "[0-9]{2}" => ⟨false, false, twoDigits⟩
  | "^[0-9]{2}$" => ⟨true, true, twoDigits⟩
  | _ => ⟨false, false, RE.emp⟩

/-- A compile function for examples that use no constraints at all. -/
def rxCompileNone : String → Regexp := fun _ => ⟨false, false, RE.emp⟩

/-! ### String helpers from the Go standard library -/

/-- Go `strings.Trim(s, "/")`: drop leading and trailing `/` characters. -/
def trimSlash (s : String) : String :=
  String.mk (((s.data.dropWhile (· = '/')).reverse.dropWhile (· = '/')).reverse)

/-- Character-list version of Go `strings.Cut(s, "|")`. -/
def cutChars : List Char → List Char × List Char × Bool
  | [] => ([], [], false)
  | c :: cs =>
      if c = '|' then ([], cs, true)
      else
        let r := cutChars cs
        (c :: r.1, r.2.1, r.2.2)

/-- Go `strings.Cut(s, "|")`: split at the first `|`, reporting whether
one was found. -/
def cutPipe (s : String) : String × String × Bool :=
  let r := cutChars s.data
  (String.mk r.1, String.mk r.2.1, r.2.2)

/-- Go `strings.HasPrefix(s, ":")`. -/
def startsWithColon (s : String) : Bool :=
  match s.data with
  | c :: _ => c = ':'
  | [] => false

/-- Go `strings.TrimPrefix(s, ":")` under the knowledge that `s` starts
with `:` (the code only applies it in that branch). -/
def strTail (s : String) : String :=
  String.mk s.data.tail

/-- Go `strings.ToUpper` restricted to ASCII, which covers HTTP method
strings (`Char.toUpper` upcases exactly the ASCII lowercase letters). -/
def strToUpper (s : String) : String :=
  String.mk (s.data.map Char.toUpper)

/-- Character-list version of Go `strings.Split(s, "/")`: cut at every
`/`, keeping empty pieces, with `[""]` for the empty string. -/
def splitSlashChars : List Char → List (List Char)
  | [] => [[]]
  | c :: cs =>
      if c = '/' then [] :: splitSlashChars cs
      else
        match splitSlashChars cs with
        | s :: ss => (c :: s) :: ss
        | [] => [[c]]

/-- Go `strings.Split(s, "/")`. -/
def splitSlash (s : String) : List String :=
  (splitSlashChars s.data).map String.mk

/-- Go `strings.Split(strings.Trim(path, "/"), "/")`, as used both by
`Handle` on patterns and by `ServeHTTP` on request paths. -/
def pathSegs (path : String) : List String :=
  splitSlash (trimSlash path)

/-- Go map assignment `m[k] = v` on an association-list model: replace
the value at an existing key, otherwise append the new entry. -/
def mapInsert (l : List (String × α)) (k : String) (v : α) : List (String × α) :=
  if l.any (fun p => p.1 = k) then
    l.map (fun p => if p.1 = k then (k, v) else p)
  else l ++ [(k, v)]

/-- Go helper `contains(slice, item)` from `flow.go`. -/
def contains (slice : List String) (item : String) : Bool :=
  slice.any (fun s => s = item)

/-- Slice `AllMethods` from `flow.go`, in source order. -/
def AllMethods : List String :=
  ["GET", "HEAD", "POST", "PUT", "PATCH", "DELETE", "CONNECT", "OPTIONS", "TRACE"]

/-! ### The route tree -/

/-- Node type `routeTree` from `flow.go`: segment text, method→handler bindings,
ordered children, parameter name, wildcard flag, optional constraint. -/
inductive RouteTree (H : Type) where
  | mk : String → List (String × H) → List (RouteTree H) → String → Bool →
      Option Regexp → RouteTree H

namespace RouteTree

variable {H : Type}

/-- The `segment` field. -/
def segment : RouteTree H → String
  | mk s _ _ _ _ _ => s

/-- The `handlers` field (Go `map[string]http.Handler`). -/
def handlers : RouteTree H → List (String × H)
  | mk _ h _ _ _ _ => h

/-- The `children` field. -/
def children : RouteTree H → List (RouteTree H)
  | mk _ _ c _ _ _ => c

/-- The `paramName` field. -/
def paramName : RouteTree H → String
  | mk _ _ _ p _ _ => p

/-- The `isWildcard` field. -/
def isWildcard : RouteTree H → Bool
  | mk _ _ _ _ w _ => w

/-- The `rxPattern` field. -/
def rxPattern : RouteTree H → Option Regexp
  | mk _ _ _ _ _ r => r

/-- A freshly allocated child, as in `findOrCreateChild`. -/
def new (seg pname : String) : RouteTree H :=
  mk seg [] [] pname false none

/-- The root node built by `New()`. -/
def newRoot : RouteTree H := new "" ""

/-- Mutation `current.isWildcard = true; current.handlers[method] = handler`. -/
def withWildcardHandler (t : RouteTree H) (method : String) (h : H) : RouteTree H :=
  match t with
  | mk s hs c p _ r => mk s (mapInsert hs method h) c p true r

/-- Mutation `child.handlers[method] = handler`. -/
def withHandler (t : RouteTree H) (method : String) (h : H) : RouteTree H :=
  match t with
  | mk s hs c p w r => mk s (mapInsert hs method h) c p w r

/-- Mutation `child.rxPattern = rx`. -/
def withRx (t : RouteTree H) (rx : Option Regexp) : RouteTree H :=
  match t with
  | mk s hs c p w _ => mk s hs c p w rx

/-- Replace the tree's children list. -/
def withChildren (t : RouteTree H) (cs : List (RouteTree H)) : RouteTree H :=
  match t with
  | mk s hs _ p w r => mk s hs cs p w r

end RouteTree

variable {H : Type}

/-- The search loop of `findOrCreateChild`: the first child whose
`(segment, paramName)` pair equals the requested one. -/
def findChild (cs : List (RouteTree H)) (seg pname : String) : Option (RouteTree H) :=
  cs.find? (fun c => c.segment = seg && c.paramName = pname)

/-- Functional rendering of the mutation in `findOrCreateChild` +
`addRoute`: substitute the updated child at the position of the first
child with the given key, or append it when no child has the key (Go
appends the fresh child before mutating it through the pointer). -/
def replaceChild : List (RouteTree H) → String → String → RouteTree H → List (RouteTree H)
  | [], _, _, c' => [c']
  | c :: cs, seg, pname, c' =>
      if c.segment = seg && c.paramName = pname then c' :: cs
      else c :: replaceChild cs seg pname c'

/-- Function `addRoute` from `flow.go`, as a functional update of the tree.  The
Go loop walks `current` down the tree mutating child pointers; here each
level rebuilds its children list around the recursively updated child.
The compile function stands for `regexp.MustCompile` (the `rxCache` is
semantically transparent: compilation is a pure function of the pattern
text). -/
def addRoute (cmp : String → Regexp) : List String → String → H → RouteTree H → RouteTree H
  | [], _, _, node => node
  | seg :: rest, method, h, node =>
    if seg = "..." then node.withWildcardHandler method h
    else
      let key :=
        if startsWithColon seg then
          let c := cutPipe (strTail seg)
          ("", c.1, if c.2.2 then some c.2.1 else none)
        else (seg, "", none)
      let child := (findChild node.children key.1 key.2.1).getD (RouteTree.new key.1 key.2.1)
      let child := match key.2.2 with
        | some t => child.withRx (some (cmp t))
        | none => child
      let child := if rest.isEmpty then child.withHandler method h else child
      let child := addRoute cmp rest method h child
      node.withChildren (replaceChild node.children key.1 key.2.1 child)

/-- Result triple of `findHandler`: the matched node's handler map, the
captured parameters, and the allowed-method set (modelled as the key
list of the handler map, which is what `makeAllowedMethodsMap` builds). -/
abbrev FindResult (H : Type) := List (String × H) × List (String × String) × List String

/-- Function `makeAllowedMethodsMap` from `flow.go`: the set of methods bound in a
handler map, as its key list. -/
def makeAllowedMethodsMap (hs : List (String × H)) : List String :=
  hs.map Prod.fst

mutual

/-- Function `findHandler` from `flow.go`: recursive descent with backtracking.
Literal children are scanned first, then parameter children; a wildcard
node absorbs all remaining segments.  Parameter captures go into a copy
of the map (`copyParams`), so failed branches leak no captures. -/
def findHandler : RouteTree H → List String → List (String × String) → Option (FindResult H)
  | .mk _ hs children _ wild _, segs, params =>
    match segs with
    | [] => if hs.isEmpty then none else some (hs, params, makeAllowedMethodsMap hs)
    | seg :: rest =>
      if wild then
        some (hs, mapInsert params "..." (String.intercalate "/" segs),
          makeAllowedMethodsMap hs)
      else
        match litLoop children seg rest params with
        | some r => some r
        | none => parLoop children seg rest params
termination_by structural t => t

/-- The first loop of `findHandler`: children whose literal segment
equals the current one, in insertion order, first success wins. -/
def litLoop : List (RouteTree H) → String → List String → List (String × String) →
    Option (FindResult H)
  | [], _, _, _ => none
  | c :: cs, seg, rest, params =>
      if c.segment = seg then
        match findHandler c rest params with
        | some r => some r
        | none => litLoop cs seg rest params
      else litLoop cs seg rest params
termination_by structural l => l

/-- The second loop of `findHandler`: parameter children, in insertion
order, skipping children whose constraint the segment fails. -/
def parLoop : List (RouteTree H) → String → List String → List (String × String) →
    Option (FindResult H)
  | [], _, _, _ => none
  | c :: cs, seg, rest, params =>
      if c.paramName ≠ "" then
        if (match c.rxPattern with
            | some rx => !rx.matchString seg
            | none => false) then
          parLoop cs seg rest params
        else
          match findHandler c rest (mapInsert params c.paramName seg) with
          | some r => some r
          | none => parLoop cs seg rest params
      else parLoop cs seg rest params
termination_by structural l => l

end

/-! ### The router, middleware and request serving -/

/-- Struct `Mux` from `flow.go`.  The `rxCache` field is omitted: `LoadOrStore`
with a deterministic compiler is semantically the compiler itself, which
the registration functions take as the `cmp` argument. -/
structure Mux (H : Type) where
  root : RouteTree H
  NotFound : H
  MethodNotAllowed : H
  Options : H
  middlewares : List (H → H)

/-- Method `wrap` from `flow.go`: the loop runs the index from the end of the
middleware list down to `0`, each step replacing the handler by
`middlewares[i](handler)`. -/
def wrap (mws : List (H → H)) (handler : H) : H :=
  mws.reverse.foldl (fun h mw => mw h) handler

/-- Method `Use` from `flow.go`. -/
def use (m : Mux H) (mw : List (H → H)) : Mux H :=
  { m with middlewares := m.middlewares ++ mw }

/-- Method `Handle` from `flow.go`: default the method set, add `HEAD` when
`GET` is present, split the pattern, wrap the handler with the current
middleware chain, and register it under every (uppercased) method. -/
def handle (cmp : String → Regexp) (m : Mux H) (pattern : String) (handler : H)
    (methods : List String) : Mux H :=
  let ms := if methods.isEmpty then AllMethods else methods
  let ms := if contains ms "GET" && !contains ms "HEAD" then ms ++ ["HEAD"] else ms
  let segments := pathSegs pattern
  let wrappedHandler := wrap m.middlewares handler
  { m with
    root := ms.foldl
      (fun r method => addRoute cmp segments (strToUpper method) wrappedHandler r)
      m.root }

/-- What `ServeHTTP` does with a request, with the handler that actually
runs recorded in each case (for fallbacks that is the configured fallback
handler wrapped by the middleware chain at serving time). -/
inductive Outcome (H : Type) where
  | dispatch : H → List (String × String) → Outcome H
  | notFound : H → Outcome H
  | methodNotAllowed : H → List String → Outcome H
  | preflight : H → List String → Outcome H
deriving DecidableEq

/-- Method `ServeHTTP` from `flow.go`: split the trimmed path, run
`findHandler`, dispatch when the request method is bound, otherwise fall
back to preflight / method-not-allowed (with `Allow` set to the allowed
methods plus `OPTIONS`) when the matched node has bindings, and to
not-found when nothing matched. -/
def serve (m : Mux H) (method path : String) : Outcome H :=
  let segments := pathSegs path
  match findHandler m.root segments [] with
  | some r =>
      match List.lookup method r.1 with
      | some h => .dispatch h r.2.1
      | none =>
          if r.2.2.isEmpty then .notFound (wrap m.middlewares m.NotFound)
          else
            let allow := r.2.2 ++ ["OPTIONS"]
            if method = "OPTIONS" then .preflight (wrap m.middlewares m.Options) allow
            else .methodNotAllowed (wrap m.middlewares m.MethodNotAllowed) allow
  | none => .notFound (wrap m.middlewares m.NotFound)

/-! ### Tree invariants and concrete instances used by the theorems -/

/-- No two children of this list share a `(segment, paramName)` key. -/
def keysDistinct : List (RouteTree H) → Bool
  | [] => true
  | c :: cs =>
      !(cs.any fun d => d.segment == c.segment && d.paramName == c.paramName) &&
        keysDistinct cs

mutual

/-- At every node of the tree, the children are pairwise distinct in
their `(segment, paramName)` key. -/
def keysUnique : RouteTree H → Bool
  | .mk _ _ cs _ _ _ => keysDistinct cs && keysUniqueAll cs
termination_by structural t => t

/-- Predicate `keysUnique` for every tree in the list. -/
def keysUniqueAll : List (RouteTree H) → Bool
  | [] => true
  | c :: cs => keysUnique c && keysUniqueAll cs
termination_by structural l => l

end

/-- Apply a list of `addRoute` registrations to the fresh root. -/
def registerAll (cmp : String → Regexp) (regs : List (List String × String × H)) :
    RouteTree H :=
  regs.foldl (fun r q => addRoute cmp q.1 q.2.1 q.2.2 r) RouteTree.newRoot

/-- A root with a single constrained parameter child bound for `GET`:
the shape `addRoute` gives the tree for a pattern `/:name|rx`. -/
def paramTree (pname : String) (rx : Option Regexp) (h : H) : RouteTree H :=
  .mk "" [] [.mk "" [("GET", h)] [] pname false rx] "" false none

/-- A middleware that tags the trace it wraps with its own identifier;
first-registered shows up first in the produced trace. -/
def traceMW (i : Nat) : List Nat → List Nat := fun t => i :: t

/-- A mux over `Nat` handler identifiers with fallback handlers `100`
(not-found), `101` (method-not-allowed) and `102` (preflight), and no
middleware. -/
def natMux (root : RouteTree Nat) : Mux Nat :=
  ⟨root, 100, 101, 102, []⟩

/-- A literal child `b` bound to handler `1`. -/
def litChild : RouteTree Nat := .mk "b" [("GET", 1)] [] "" false none

/-- A parameter child `:x` bound to handler `2`. -/
def parChild : RouteTree Nat := .mk "" [("GET", 2)] [] "x" false none

/-- Mux with the single registration `GET /prefix/...` → handler `1`. -/
def wildMux : Mux Nat :=
  natMux (addRoute rxCompileNone ["prefix", "..."] "GET" 1 RouteTree.newRoot)

/-- Mux with the single registration `GET /x` → handler `1`. -/
def oneRouteMux : Mux Nat :=
  natMux (addRoute rxCompileNone ["x"] "GET" 1 RouteTree.newRoot)

/-- Mux where `OPTIONS /x` is explicitly bound to handler `7` (distinct
from the configured preflight handler `102`). -/
def optionsBoundMux : Mux Nat :=
  natMux (addRoute rxCompileNone ["x"] "OPTIONS" 7 RouteTree.newRoot)

/-- The tree after registering `/:x|[0-9]{2}` and then `/:x|^[0-9]{2}$`:
both registrations reuse the parameter child `("", "x")` of the root. -/
def rxTwiceTree : RouteTree Nat :=
  addRoute rxCompileEx [":x|^[0-9]{2}$"] "GET" 2
    (addRoute rxCompileEx [":x|[0-9]{2}"] "GET" 1 RouteTree.newRoot)

/-- The tree after registering `GET /p/:n|[0-9]{2}` (unanchored). -/
def rxSearchTree : RouteTree Nat :=
  addRoute rxCompileEx ["p", ":n|[0-9]{2}"] "GET" 5 RouteTree.newRoot

/-- The tree after registering `GET /p/:n|^[0-9]{2}$` (anchored). -/
def rxAnchoredTree : RouteTree Nat :=
  addRoute rxCompileEx ["p", ":n|^[0-9]{2}$"] "GET" 5 RouteTree.newRoot

/-- The tree after registering `GET /a/...` and `GET /b/...`: the root
gets two children, both carrying the wildcard flag. -/
def twoWildcardTree : RouteTree Nat :=
  addRoute rxCompileNone ["b", "..."] "GET" 2
    (addRoute rxCompileNone ["a", "..."] "GET" 1 RouteTree.newRoot)

/-- Trace-handler mux: decorators `11`, `12`; fallback handlers produce
traces `[0]`, `[1]`, `[2]`; one route `GET /x` with base trace `[9]`. -/
def demoMux : Mux (List Nat) :=
  handle rxCompileNone
    { root := RouteTree.newRoot, NotFound := [0], MethodNotAllowed := [1],
      Options := [2], middlewares := [traceMW 11, traceMW 12] }
    "/x" [9] ["GET"]

/-- Mux with `GET /:p` (handler `1`) registered before `GET /` (handler
`2`): the parameter child of the root carries segment text `""`, which
exactly equals the lone empty segment the root path produces. -/
def shadowMux : Mux Nat :=
  natMux (addRoute rxCompileNone [""] "GET" 2
    (addRoute rxCompileNone [":p"] "GET" 1 RouteTree.newRoot))

/-! ### Supporting lemmas -/

theorem wrap_nil (h : H) : wrap [] h = h := rfl

theorem wrap_eq_foldr (mws : List (H → H)) (h : H) :
    wrap mws h = mws.foldr (fun mw acc => mw acc) h := by
  simpa [wrap] using List.foldl_reverse (fun acc mw => mw acc) h mws

theorem addRoute_segment (cmp : String → Regexp) (segs : List String) (method : String)
    (h : H) (t : RouteTree H) : (addRoute cmp segs method h t).segment = t.segment := by
  cases segs with
  | nil => rfl
  | cons seg rest => cases t with
    | mk s hs cs p w r =>
        simp only [addRoute]
        split <;> rfl

theorem addRoute_paramName (cmp : String → Regexp) (segs : List String) (method : String)
    (h : H) (t : RouteTree H) : (addRoute cmp segs method h t).paramName = t.paramName := by
  cases segs with
  | nil => rfl
  | cons seg rest => cases t with
    | mk s hs cs p w r =>
        simp only [addRoute]
        split <;> rfl

theorem addRoute_rxPattern (cmp : String → Regexp) (segs : List String) (method : String)
    (h : H) (t : RouteTree H) : (addRoute cmp segs method h t).rxPattern = t.rxPattern := by
  cases segs with
  | nil => rfl
  | cons seg rest => cases t with
    | mk s hs cs p w r =>
        simp only [addRoute]
        split <;> rfl

theorem withHandler_rxPattern (t : RouteTree H) (method : String) (h : H) :
    (t.withHandler method h).rxPattern = t.rxPattern := by
  cases t <;> rfl

theorem withHandler_segment (t : RouteTree H) (method : String) (h : H) :
    (t.withHandler method h).segment = t.segment := by
  cases t <;> rfl

theorem withHandler_paramName (t : RouteTree H) (method : String) (h : H) :
    (t.withHandler method h).paramName = t.paramName := by
  cases t <;> rfl

theorem withRx_rxPattern (t : RouteTree H) (rx : Option Regexp) :
    (t.withRx rx).rxPattern = rx := by
  cases t <;> rfl

theorem withRx_segment (t : RouteTree H) (rx : Option Regexp) :
    (t.withRx rx).segment = t.segment := by
  cases t <;> rfl

theorem withRx_paramName (t : RouteTree H) (rx : Option Regexp) :
    (t.withRx rx).paramName = t.paramName := by
  cases t <;> rfl

theorem findChild_eq_some {cs : List (RouteTree H)} {k p : String} {c : RouteTree H}
    (hf : findChild cs k p = some c) : c.segment = k ∧ c.paramName = p ∧ c ∈ cs := by
  have hm := List.mem_of_find?_eq_some hf
  have hp := List.find?_some hf
  simp only [Bool.and_eq_true, decide_eq_true_eq] at hp
  exact ⟨hp.1, hp.2, hm⟩

theorem findChild_replaceChild (cs : List (RouteTree H)) (k p : String) (c' : RouteTree H)
    (hk : c'.segment = k) (hp : c'.paramName = p) :
    findChild (replaceChild cs k p c') k p = some c' := by
  induction cs with
  | nil => simp [replaceChild, findChild, List.find?, hk, hp]
  | cons c cs ih =>
      simp only [replaceChild]
      split
      · simp [findChild, List.find?, hk, hp]
      · rename_i hcond
        simp only [Bool.not_eq_true] at hcond
        simp only [findChild, List.find?, hcond] at ih ⊢
        exact ih

theorem mem_replaceChild {cs : List (RouteTree H)} {k p : String} {c' d : RouteTree H}
    (hd : d ∈ replaceChild cs k p c') : d = c' ∨ d ∈ cs := by
  induction cs with
  | nil => simpa [replaceChild] using hd
  | cons c cs ih =>
      simp only [replaceChild] at hd
      split at hd
      · rcases List.mem_cons.mp hd with h | h
        · exact Or.inl h
        · exact Or.inr (List.mem_cons_of_mem _ h)
      · rcases List.mem_cons.mp hd with h | h
        · exact Or.inr (h ▸ List.mem_cons_self _ _)
        · rcases ih h with h' | h'
          · exact Or.inl h'
          · exact Or.inr (List.mem_cons_of_mem _ h')

theorem allowedAux (n : Nat) :
    (∀ t : RouteTree H, sizeOf t ≤ n → ∀ segs params r,
        findHandler t segs params = some r → r.2.2 = r.1.map Prod.fst) ∧
    (∀ cs : List (RouteTree H), sizeOf cs ≤ n → ∀ seg rest params r,
        litLoop cs seg rest params = some r → r.2.2 = r.1.map Prod.fst) ∧
    (∀ cs : List (RouteTree H), sizeOf cs ≤ n → ∀ seg rest params r,
        parLoop cs seg rest params = some r → r.2.2 = r.1.map Prod.fst) := by
  induction n with
  | zero =>
      refine ⟨fun t ht => absurd ht ?_, fun cs hcs => absurd hcs ?_,
        fun cs hcs => absurd hcs ?_⟩
      · cases t <;> simp_arith
      · cases cs <;> simp_arith
      · cases cs <;> simp_arith
  | succ n ih =>
      obtain ⟨ihT, ihL, ihP⟩ := ih
      refine ⟨?_, ?_, ?_⟩
      · intro t ht segs params r hfind
        cases t with
        | mk s hs cs p w rx =>
            have hcs : sizeOf cs ≤ n := by simp_arith at ht; omega
            cases segs with
            | nil =>
                simp only [findHandler] at hfind
                split at hfind
                · exact absurd hfind (by simp)
                · cases hfind
                  rfl
            | cons seg rest =>
                simp only [findHandler] at hfind
                split at hfind
                · cases hfind
                  rfl
                · cases hlit : litLoop cs seg rest params with
                  | some r2 =>
                      simp only [hlit] at hfind
                      cases hfind
                      exact ihL cs hcs seg rest params r hlit
                  | none =>
                      simp only [hlit] at hfind
                      exact ihP cs hcs seg rest params r hfind
      · intro cs hsz seg rest params r hlit
        cases cs with
        | nil => exact absurd hlit (by simp [litLoop])
        | cons c cs =>
            have hc : sizeOf c ≤ n := by simp_arith at hsz; omega
            have hcs : sizeOf cs ≤ n := by simp_arith at hsz; omega
            simp only [litLoop] at hlit
            split at hlit
            · cases hf : findHandler c rest params with
              | some r2 =>
                  simp only [hf] at hlit
                  cases hlit
                  exact ihT c hc rest params r hf
              | none =>
                  simp only [hf] at hlit
                  exact ihL cs hcs seg rest params r hlit
            · exact ihL cs hcs seg rest params r hlit
      · intro cs hsz seg rest params r hpar
        cases cs with
        | nil => exact absurd hpar (by simp [parLoop])
        | cons c cs =>
            have hc : sizeOf c ≤ n := by simp_arith at hsz; omega
            have hcs : sizeOf cs ≤ n := by simp_arith at hsz; omega
            simp only [parLoop] at hpar
            split at hpar
            · split at hpar
              · exact ihP cs hcs seg rest params r hpar
              · cases hf : findHandler c rest (mapInsert params c.paramName seg) with
                | some r2 =>
                    simp only [hf] at hpar
                    cases hpar
                    exact ihT c hc rest _ r hf
                | none =>
                    simp only [hf] at hpar
                    exact ihP cs hcs seg rest params r hpar
            · exact ihP cs hcs seg rest params r hpar

/-- The allowed-method set `findHandler` reports is always the key list
of the handler map it returns (`makeAllowedMethodsMap`). -/
theorem findHandler_allowed {t : RouteTree H} {segs : List String}
    {params : List (String × String)} {r : FindResult H}
    (hf : findHandler t segs params = some r) : r.2.2 = r.1.map Prod.fst :=
  (allowedAux (sizeOf t)).1 t le_rfl segs params r hf

theorem lookup_isSome_iff (x : String) (hs : List (String × α)) :
    (List.lookup x hs).isSome = true ↔ x ∈ hs.map Prod.fst := by
  induction hs with
  | nil => simp [List.lookup]
  | cons q t ih =>
      cases q with
      | mk k v =>
          by_cases hx : x = k
          · simp [List.lookup, hx]
          · have hbeq : (x == k) = false := beq_eq_false_iff_ne.mpr hx
            simp [List.lookup, hbeq, hx, ih]

/-- Any result of the exact-match scan comes from a child whose stored
segment text equals the scanned segment. -/
theorem litLoop_sound {cs : List (RouteTree H)} {seg : String} {rest : List String}
    {params : List (String × String)} {r : FindResult H}
    (hl : litLoop cs seg rest params = some r) :
    ∃ c ∈ cs, c.segment = seg ∧ findHandler c rest params = some r := by
  induction cs with
  | nil => exact absurd hl (by simp [litLoop])
  | cons c cs ih =>
      simp only [litLoop] at hl
      split at hl
      · rename_i hcseg
        cases hf : findHandler c rest params with
        | some r2 =>
            simp only [hf] at hl
            cases hl
            exact ⟨c, List.mem_cons_self _ _, hcseg, hf⟩
        | none =>
            simp only [hf] at hl
            obtain ⟨c', hmem, hs, hr⟩ := ih hl
            exact ⟨c', List.mem_cons_of_mem _ hmem, hs, hr⟩
      · obtain ⟨c', hmem, hs, hr⟩ := ih hl
        exact ⟨c', List.mem_cons_of_mem _ hmem, hs, hr⟩

/-- If some child with the scanned segment text has a matching subtree,
the exact-match scan succeeds. -/
theorem litLoop_complete {cs : List (RouteTree H)} {seg : String} {rest : List String}
    {params : List (String × String)} {c0 : RouteTree H}
    (hmem : c0 ∈ cs) (hseg : c0.segment = seg)
    (hne : findHandler c0 rest params ≠ none) :
    litLoop cs seg rest params ≠ none := by
  induction cs with
  | nil => cases hmem
  | cons c cs ih =>
      simp only [litLoop]
      rcases List.mem_cons.mp hmem with rfl | hmem'
      · rw [if_pos hseg]
        cases hf : findHandler c0 rest params with
        | some r => simp
        | none => exact absurd hf hne
      · split
        · cases hf : findHandler c rest params with
          | some r => simp
          | none => simpa [hf] using ih hmem'
        · exact ih hmem'

theorem keysUnique_withWildcardHandler (t : RouteTree H) (method : String) (h : H) :
    keysUnique (t.withWildcardHandler method h) = keysUnique t := by
  cases t
  rfl

theorem keysUnique_withHandler (t : RouteTree H) (method : String) (h : H) :
    keysUnique (t.withHandler method h) = keysUnique t := by
  cases t
  rfl

theorem keysUnique_withRx (t : RouteTree H) (rx : Option Regexp) :
    keysUnique (t.withRx rx) = keysUnique t := by
  cases t
  rfl

theorem keysUniqueAll_mem {cs : List (RouteTree H)} (hall : keysUniqueAll cs = true)
    {c : RouteTree H} (hc : c ∈ cs) : keysUnique c = true := by
  induction cs with
  | nil => cases hc
  | cons d ds ih =>
      simp only [keysUniqueAll, Bool.and_eq_true] at hall
      rcases List.mem_cons.mp hc with rfl | hmem
      · exact hall.1
      · exact ih hall.2 hmem

theorem keysDistinct_replaceChild {cs : List (RouteTree H)} {k p : String}
    {c' : RouteTree H} (hdist : keysDistinct cs = true)
    (hk : c'.segment = k) (hp : c'.paramName = p) :
    keysDistinct (replaceChild cs k p c') = true := by
  induction cs with
  | nil => simp [replaceChild, keysDistinct]
  | cons c cs ih =>
      simp only [keysDistinct, Bool.and_eq_true, Bool.not_eq_true'] at hdist
      obtain ⟨hno, hdist'⟩ := hdist
      simp only [replaceChild]
      split
      · rename_i hcond
        simp only [Bool.and_eq_true, decide_eq_true_eq] at hcond
        simp only [keysDistinct, Bool.and_eq_true, Bool.not_eq_true']
        refine ⟨?_, hdist'⟩
        simp only [hk, hp]
        simpa only [hcond.1, hcond.2] using hno
      · rename_i hcond
        simp only [keysDistinct, Bool.and_eq_true, Bool.not_eq_true']
        refine ⟨?_, ih hdist'⟩
        rw [List.any_eq_false]
        intro d hd
        rcases mem_replaceChild hd with rfl | hdin
        · have hcs : c.segment ≠ k ∨ c.paramName ≠ p := by
            by_contra hboth
            push_neg at hboth
            exact hcond (by simp [hboth.1, hboth.2])
          rcases hcs with hne | hne
          · have hds : d.segment ≠ c.segment := by
              rw [hk]
              exact fun hE => hne hE.symm
            simp [beq_eq_false_iff_ne.mpr hds]
          · have hdp : d.paramName ≠ c.paramName := by
              rw [hp]
              exact fun hE => hne hE.symm
            simp [beq_eq_false_iff_ne.mpr hdp]
        · exact List.any_eq_false.mp hno d hdin

theorem keysUniqueAll_replaceChild {cs : List (RouteTree H)} {k p : String}
    {c' : RouteTree H} (hall : keysUniqueAll cs = true) (hc' : keysUnique c' = true) :
    keysUniqueAll (replaceChild cs k p c') = true := by
  induction cs with
  | nil => simp [replaceChild, keysUniqueAll, hc']
  | cons c cs ih =>
      simp only [keysUniqueAll, Bool.and_eq_true] at hall
      simp only [replaceChild]
      split
      · simp [keysUniqueAll, Bool.and_eq_true, hc', hall.2]
      · simp [keysUniqueAll, Bool.and_eq_true, hall.1, ih hall.2]

theorem keysUnique_addRoute (cmp : String → Regexp) :
    ∀ (segs : List String) (method : String) (h : H) (t : RouteTree H),
      keysUnique t = true → keysUnique (addRoute cmp segs method h t) = true := by
  intro segs
  induction segs with
  | nil =>
      intro method h t ht
      exact ht
  | cons seg rest ih =>
      intro method h t ht
      cases t with
      | mk s0 hs0 cs0 p0 w0 rx0 =>
          have hun : keysDistinct cs0 = true ∧ keysUniqueAll cs0 = true := by
            simpa [keysUnique, Bool.and_eq_true] using ht
          simp only [addRoute]
          split
          · rw [keysUnique_withWildcardHandler]
            exact ht
          · set key :=
              if startsWithColon seg then
                let c := cutPipe (strTail seg)
                (("" : String), c.1, if c.2.2 then some c.2.1 else none)
              else (seg, "", none) with hkey
            set child0 := (findChild cs0 key.1 key.2.1).getD (RouteTree.new key.1 key.2.1)
              with hchild0
            have hu0 : keysUnique child0 = true := by
              cases hfc : findChild cs0 key.1 key.2.1 with
              | none => simp [hchild0, hfc, RouteTree.new, keysUnique, keysDistinct,
                  keysUniqueAll]
              | some c =>
                  obtain ⟨_, _, hmem⟩ := findChild_eq_some hfc
                  simpa [hchild0, hfc] using keysUniqueAll_mem hun.2 hmem
            have hk0 : child0.segment = key.1 ∧ child0.paramName = key.2.1 := by
              cases hfc : findChild cs0 key.1 key.2.1 with
              | none => simp [hchild0, hfc, RouteTree.new, RouteTree.segment,
                  RouteTree.paramName]
              | some c =>
                  obtain ⟨h1, h2, _⟩ := findChild_eq_some hfc
                  simp [hchild0, hfc, h1, h2]
            set child1 := match key.2.2 with
              | some t => child0.withRx (some (cmp t))
              | none => child0
              with hchild1
            have hu1 : keysUnique child1 = true := by
              cases hk2 : key.2.2 with
              | none => simpa [hchild1, hk2] using hu0
              | some t => simpa [hchild1, hk2, keysUnique_withRx] using hu0
            have hk1 : child1.segment = key.1 ∧ child1.paramName = key.2.1 := by
              cases hk2 : key.2.2 with
              | none => simpa [hchild1, hk2] using hk0
              | some t =>
                  simpa [hchild1, hk2, withRx_segment, withRx_paramName] using hk0
            set child2 := if rest.isEmpty then child1.withHandler method h else child1
              with hchild2
            have hu2 : keysUnique child2 = true := by
              by_cases hr : rest.isEmpty
              · simpa [hchild2, hr, keysUnique_withHandler] using hu1
              · simpa [hchild2, hr] using hu1
            have hk2 : child2.segment = key.1 ∧ child2.paramName = key.2.1 := by
              by_cases hr : rest.isEmpty
              · simpa [hchild2, hr, withHandler_segment, withHandler_paramName] using hk1
              · simpa [hchild2, hr] using hk1
            have hu3 : keysUnique (addRoute cmp rest method h child2) = true :=
              ih method h child2 hu2
            have hk3 : (addRoute cmp rest method h child2).segment = key.1 ∧
                (addRoute cmp rest method h child2).paramName = key.2.1 := by
              rw [addRoute_segment, addRoute_paramName]
              exact hk2
            simp only [RouteTree.withChildren, keysUnique, Bool.and_eq_true]
            exact ⟨keysDistinct_replaceChild hun.1 hk3.1 hk3.2,
              keysUniqueAll_replaceChild hun.2 hu3⟩

/-! ### The claims -/

/-- C8: `wrap` builds the chain from the innermost handler outward in
reverse registration order, so `wrap [d1, …, dn] h = d1 (d2 (… (dn h)))`;
instantiated with trace-tagging decorators this makes the execution
order equal the registration order, the first-registered decorator
observing the request first. -/
theorem c8_middleware_order :
    (∀ (A : Type) (mws : List (A → A)) (h : A),
        wrap mws h = mws.foldr (fun mw acc => mw acc) h) ∧
    (∀ (ids base : List Nat), wrap (ids.map traceMW) base = ids ++ base) := by
  have h1 : ∀ (A : Type) (mws : List (A → A)) (h : A),
      wrap mws h = mws.foldr (fun mw acc => mw acc) h := fun A mws h => wrap_eq_foldr mws h
  refine ⟨h1, ?_⟩
  intro ids base
  induction ids with
  | nil => rfl
  | cons i ids ih =>
      rw [List.map_cons, h1, List.foldr_cons, ← h1, ih]
      rfl

/-- C1 counterexample: with `GET /:p` registered before `GET /`, the
request `GET /` produces the single empty segment, the parameter child's
stored segment text `""` equals that segment, so the exact-match scan
recurses into the parameter child first and its handler `1` wins — even
though the literal child registered for `/` has a matching subtree with
handler `2`.  The literal branch's handler is not returned, refuting the
claim's universal literal-over-parameter precedence. -/
theorem c1_counterexample :
    serve shadowMux "GET" "/" = Outcome.dispatch 1 [] ∧
    shadowMux.root.children.map RouteTree.paramName = ["p", ""] ∧
    findHandler (RouteTree.mk "" [("GET", 2)] [] "" false none) [] []
      = some ([("GET", 2)], [], ["GET"]) := by
  exact ⟨by decide, by decide, by decide⟩

/-- C1 (amended): at every non-wildcard node the exact-match scan over
the children runs first and its first success is the node's result, the
parameter loop being consulted only when that scan fails; and for every
NON-EMPTY segment, if a literal child (empty `paramName`) with that
segment text has a matching subtree, the node's result is the first
success of the exact-match scan, which under the parameter-children-have-
empty-segment shape can only come from a literal child.  (For the empty
segment a parameter child participates in the exact-match scan itself
and can shadow a later literal child.) -/
theorem c1_literal_precedence_amended (s0 : String) (hs0 : List (String × H))
    (cs : List (RouteTree H)) (p0 : String) (rx0 : Option Regexp)
    (seg : String) (rest : List String) (params : List (String × String)) :
    ((∀ r, litLoop cs seg rest params = some r →
        findHandler (RouteTree.mk s0 hs0 cs p0 false rx0) (seg :: rest) params = some r) ∧
     (litLoop cs seg rest params = none →
        findHandler (RouteTree.mk s0 hs0 cs p0 false rx0) (seg :: rest) params
          = parLoop cs seg rest params)) ∧
    (seg ≠ "" → (∀ c ∈ cs, c.paramName ≠ "" → c.segment = "") →
      ∀ c0 ∈ cs, c0.paramName = "" → c0.segment = seg →
        findHandler c0 rest params ≠ none →
        ∃ c' r, c' ∈ cs ∧ c'.paramName = "" ∧ c'.segment = seg ∧
          findHandler c' rest params = some r ∧
          findHandler (RouteTree.mk s0 hs0 cs p0 false rx0) (seg :: rest) params
            = some r) := by
  have hbase : ∀ r, litLoop cs seg rest params = some r →
      findHandler (RouteTree.mk s0 hs0 cs p0 false rx0) (seg :: rest) params = some r := by
    intro r hr
    simp [findHandler, hr]
  have hbase2 : litLoop cs seg rest params = none →
      findHandler (RouteTree.mk s0 hs0 cs p0 false rx0) (seg :: rest) params
        = parLoop cs seg rest params := by
    intro hr
    simp [findHandler, hr]
  refine ⟨⟨hbase, hbase2⟩, ?_⟩
  intro hseg hshape c0 hmem hpar0 hseg0 hne
  have hlit := litLoop_complete hmem hseg0 hne
  cases hl : litLoop cs seg rest params with
  | none => exact absurd hl hlit
  | some r =>
      obtain ⟨c', hmem', hseg', hfr⟩ := litLoop_sound hl
      have hpar' : c'.paramName = "" := by
        by_contra hcon
        exact hseg (hseg' ▸ hshape c' hmem' hcon)
      exact ⟨c', r, hmem', hpar', hseg', hfr, hbase r hl⟩

/-- Witness for the amended C1: at a node with literal child `b`
(handler `1`) and parameter child `:x` (handler `2`), segment `b`, the
literal branch's result is the node's result. -/
theorem c1_witness :
    ∃ c' r, c' ∈ [litChild, parChild] ∧ c'.paramName = "" ∧ c'.segment = "b" ∧
      findHandler c' [] [] = some r ∧
      findHandler (RouteTree.mk "" [] [litChild, parChild] "" false none) ["b"] []
        = some r :=
  (c1_literal_precedence_amended "" [] [litChild, parChild] "" none "b" [] []).2
    (by decide) (by decide) litChild (List.mem_cons_self _ _) (by decide) (by decide)
    (by decide)

/-- C5 counterexample: the anchored two-digit constraint finds no match
in the empty segment, yet the constrained parameter node still matches
the empty segment — the exact-match scan recurses into the parameter
child (stored segment text `""`) before the constraint is ever
consulted.  The claimed "matchable iff the pattern finds a match in the
segment" therefore fails at the empty segment. -/
theorem c5_counterexample :
    Regexp.matchString ⟨true, true, twoDigits⟩ "" = false ∧
    findHandler (paramTree "n" (some ⟨true, true, twoDigits⟩) (1 : Nat)) [""] []
      = some ([("GET", 1)], [], ["GET"]) := by
  exact ⟨by decide, by decide⟩

/-- C5 (amended): for every constrained parameter node and every
NON-EMPTY segment text, the node is matchable for that segment iff the
compiled pattern finds a match anywhere within the segment (search, not
full-segment, semantics); the unanchored `[0-9]{2}` accepts `600` while
the anchored `^[0-9]{2}$` rejects it, both in isolation and through the
registered routes `/p/:n|[0-9]{2}` and `/p/:n|^[0-9]{2}$`.  (An empty
segment bypasses the constraint via the exact-match scan.) -/
theorem c5_constraint_search_amended :
    (∀ (H : Type) (pname : String) (rx : Regexp) (h : H) (seg : String),
        pname ≠ "" → seg ≠ "" →
        findHandler (paramTree pname (some rx) h) [seg] []
          = if rx.matchString seg then some ([("GET", h)], [(pname, seg)], ["GET"])
            else none) ∧
    Regexp.matchString ⟨false, false, twoDigits⟩ "600" = true ∧
    Regexp.matchString ⟨true, true, twoDigits⟩ "600" = false ∧
    findHandler rxSearchTree ["p", "600"] []
      = some ([("GET", 5)], [("n", "600")], ["GET"]) ∧
    findHandler rxAnchoredTree ["p", "600"] [] = none := by
  refine ⟨?_, by decide, by decide, by decide, by decide⟩
  intro H pname rx h seg hp hseg
  have hlit : litLoop [RouteTree.mk "" [("GET", h)] [] pname false (some rx)] seg [] []
      = none := by
    simp [litLoop, RouteTree.segment, Ne.symm hseg]
  by_cases hm : rx.matchString seg = true
  · simp [paramTree, findHandler, hlit, parLoop, RouteTree.paramName, RouteTree.rxPattern,
      hp, hm, mapInsert, makeAllowedMethodsMap, RouteTree.handlers]
  · rw [Bool.not_eq_true] at hm
    simp [paramTree, findHandler, hlit, parLoop, RouteTree.paramName, RouteTree.rxPattern,
      hp, hm]

/-- Witness for the amended C5: the unanchored two-digit constraint
accepts the segment `600` (substring search), so `findHandler` matches. -/
theorem c5_witness :
    findHandler (paramTree "n" (some ⟨false, false, twoDigits⟩) (1 : Nat)) ["600"] []
      = some ([("GET", 1)], [("n", "600")], ["GET"]) := by
  rw [c5_constraint_search_amended.1 Nat "n" ⟨false, false, twoDigits⟩ 1 "600"
    (by decide) (by decide)]
  decide

/-- Registering a wildcard pattern over a fresh chain of literal prefix
segments builds a chain that `findHandler` follows: the wildcard node
absorbs every non-empty remainder, capturing it joined by `/` under the
reserved key. -/
theorem findHandler_wildcard_chain (cmp : String → Regexp) (method : String) (h : H) :
    ∀ (pre : List String) (extra : List String) (params : List (String × String))
      (t0 : RouteTree H),
      t0.handlers = [] → t0.children = [] → t0.isWildcard = false →
      (∀ s ∈ pre, startsWithColon s = false ∧ s ≠ "...") →
      extra ≠ [] →
      findHandler (addRoute cmp (pre ++ ["..."]) method h t0) (pre ++ extra) params
        = some ([(method, h)],
            mapInsert params "..." (String.intercalate "/" extra), [method]) := by
  intro pre
  induction pre with
  | nil =>
      intro extra params t0 hh hc hw hpre hex
      cases t0 with
      | mk s0 hs0 cs0 p0 w0 rx0 =>
          simp only [RouteTree.handlers] at hh
          simp only [RouteTree.isWildcard] at hw
          subst hh
          subst hw
          cases extra with
          | nil => exact absurd rfl hex
          | cons e es =>
              simp [addRoute, RouteTree.withWildcardHandler, findHandler, mapInsert,
                makeAllowedMethodsMap]
  | cons s ps ih =>
      intro extra params t0 hh hc hw hpre hex
      obtain ⟨hs1, hs2⟩ := hpre s (List.mem_cons_self _ _)
      cases t0 with
      | mk s0 hs0 cs0 p0 w0 rx0 =>
          simp only [RouteTree.handlers] at hh
          simp only [RouteTree.children] at hc
          simp only [RouteTree.isWildcard] at hw
          subst hh
          subst hc
          subst hw
          have hrec := ih extra params (RouteTree.new s "") rfl rfl rfl
            (fun x hx => hpre x (List.mem_cons_of_mem _ hx)) hex
          have hempty : (ps ++ ["..."]).isEmpty = false := by
            cases ps <;> rfl
          have hseg : (addRoute cmp (ps ++ ["..."]) method h (RouteTree.new s "")).segment
              = s := by
            rw [addRoute_segment]
            rfl
          simp only [List.cons_append]
          simp only [addRoute, hs2, if_neg, hs1, Bool.false_eq_true, if_false, findChild,
            List.find?, Option.getD_none, hempty, replaceChild, RouteTree.withChildren]
          simp only [findHandler, Bool.false_eq_true, if_false, litLoop, hseg, if_pos,
            hrec]

/-- C2: for a mux whose tree is the single registration of a wildcard
pattern (literal fixed prefix followed by the `...` marker), every
request whose path splits into the fixed prefix plus one or more extra
segments dispatches the registered handler with the reserved `...`
capture equal to the extra segments joined by `/`. -/
theorem c2_wildcard_capture (m : Mux H) (cmp : String → Regexp) (method : String) (h : H)
    (pre extra : List String) (path : String)
    (hroot : m.root = addRoute cmp (pre ++ ["..."]) method h RouteTree.newRoot)
    (hpre : ∀ s ∈ pre, startsWithColon s = false ∧ s ≠ "...")
    (hex : extra ≠ [])
    (hsplit : pathSegs path = pre ++ extra) :
    serve m method path = .dispatch h [("...", String.intercalate "/" extra)] := by
  have hfind := findHandler_wildcard_chain cmp method h pre extra [] RouteTree.newRoot
    rfl rfl rfl hpre hex
  rw [← hroot] at hfind
  simp [serve, hsplit, hfind, List.lookup, mapInsert]

/-- Witness for C2: pattern `/prefix/...` with `GET`, request
`GET /prefix/a/b` dispatches handler `1` with capture `a/b`. -/
theorem c2_witness : serve wildMux "GET" "/prefix/a/b" = .dispatch 1 [("...", "a/b")] := by
  have hjoin : String.intercalate "/" ["a", "b"] = "a/b" := by decide
  rw [← hjoin]
  exact c2_wildcard_capture wildMux rxCompileNone "GET" 1 ["prefix"] ["a", "b"]
    "/prefix/a/b" rfl (by decide) (by decide) (by decide)

/-- C3: serving is total — every request yields exactly one of dispatch,
not-found, method-not-allowed or preflight — and a path the matcher
resolves to a node with at least one binding is never answered with
not-found, whatever the request method. -/
theorem c3_total_never_notfound (m : Mux H) (method path : String) :
    ((∃ h p, serve m method path = .dispatch h p) ∨
     (∃ h, serve m method path = .notFound h) ∨
     (∃ h a, serve m method path = .methodNotAllowed h a) ∨
     (∃ h a, serve m method path = .preflight h a)) ∧
    (∀ r, findHandler m.root (pathSegs path) [] = some r → r.1 ≠ [] →
        ∀ h, serve m method path ≠ .notFound h) := by
  constructor
  · cases ho : serve m method path with
    | dispatch h p => exact Or.inl ⟨h, p, rfl⟩
    | notFound h => exact Or.inr (Or.inl ⟨h, rfl⟩)
    | methodNotAllowed h a => exact Or.inr (Or.inr (Or.inl ⟨h, a, rfl⟩))
    | preflight h a => exact Or.inr (Or.inr (Or.inr ⟨h, a, rfl⟩))
  · intro r hfind hne h
    have hkeys := findHandler_allowed hfind
    have hemp : r.2.2.isEmpty = false := by
      rw [hkeys]
      cases hr1 : r.1 with
      | nil => exact absurd hr1 hne
      | cons a l => simp
    simp only [serve, hfind]
    cases hl : List.lookup method r.1 with
    | some hh => simp
    | none =>
        simp only [hemp, Bool.false_eq_true, if_false]
        split <;> simp

/-- Witness for C3: `POST /x` on a mux binding only `GET /x` is not
answered with not-found. -/
theorem c3_witness : serve oneRouteMux "POST" "/x" ≠ Outcome.notFound 100 :=
  (c3_total_never_notfound oneRouteMux "POST" "/x").2
    ([("GET", 1)], [], ["GET"]) (by decide) (by decide) 100

/-- C6 counterexample: with `OPTIONS /x` explicitly bound to handler `7`
(the configured preflight handler being `102`), the request
`OPTIONS /x` is answered by dispatching the bound handler `7`, not by
the router's configured preflight handler — refuting the "regardless of
whether OPTIONS was explicitly bound" part of the claim. -/
theorem c6_counterexample :
    serve optionsBoundMux "OPTIONS" "/x" = Outcome.dispatch 7 [] ∧
    optionsBoundMux.Options = 102 ∧ (7 : Nat) ≠ 102 := by
  exact ⟨by decide, by decide, by decide⟩

/-- C6 (amended): an `OPTIONS` request is never answered with
method-not-allowed; when the matched node has bindings and `OPTIONS` is
not among them, the configured preflight handler (wrapped by the
middleware chain) answers; when `OPTIONS` is explicitly bound, the bound
handler is dispatched instead. -/
theorem c6_options_amended (m : Mux H) (path : String) :
    (∀ h a, serve m "OPTIONS" path ≠ .methodNotAllowed h a) ∧
    (∀ r, findHandler m.root (pathSegs path) [] = some r → r.1 ≠ [] →
        List.lookup "OPTIONS" r.1 = none →
        serve m "OPTIONS" path
          = .preflight (wrap m.middlewares m.Options) (r.2.2 ++ ["OPTIONS"])) ∧
    (∀ r h, findHandler m.root (pathSegs path) [] = some r →
        List.lookup "OPTIONS" r.1 = some h →
        serve m "OPTIONS" path = .dispatch h r.2.1) := by
  refine ⟨?_, ?_, ?_⟩
  · intro h a hcon
    simp only [serve] at hcon
    cases hf : findHandler m.root (pathSegs path) [] with
    | none => simp [hf] at hcon
    | some r =>
        simp only [hf] at hcon
        cases hl : List.lookup "OPTIONS" r.1 with
        | some hh => simp [hl] at hcon
        | none =>
            simp only [hl] at hcon
            by_cases he : r.2.2.isEmpty = true
            · simp [he] at hcon
            · rw [Bool.not_eq_true] at he
              simp [he] at hcon
  · intro r hf hne hl
    have hkeys := findHandler_allowed hf
    have hemp : r.2.2.isEmpty = false := by
      rw [hkeys]
      cases hr1 : r.1 with
      | nil => exact absurd hr1 hne
      | cons a l => simp
    simp [serve, hf, hl, hemp]
  · intro r h hf hl
    simp [serve, hf, hl]

/-- Witness for the amended C6: `OPTIONS /x` on a mux binding only
`GET /x` is answered by the configured preflight handler `102` with
`Allow` contents `GET, OPTIONS`. -/
theorem c6_witness :
    serve oneRouteMux "OPTIONS" "/x" = .preflight 102 (["GET"] ++ ["OPTIONS"]) :=
  (c6_options_amended oneRouteMux "/x").2.1
    ([("GET", 1)], [], ["GET"]) (by decide) (by decide) (by decide)

/-- C7: when the matcher resolves the path to a node with bindings that
do not include the request method, the response is method-not-allowed
(or preflight for `OPTIONS`) and its `Allow` contents are exactly the
methods bound at the matched node plus `OPTIONS`, with `OPTIONS`
appended last. -/
theorem c7_allow_contents (m : Mux H) (method path : String) :
    ∀ r, findHandler m.root (pathSegs path) [] = some r →
      List.lookup method r.1 = none → r.1 ≠ [] →
      ((method ≠ "OPTIONS" ∧ serve m method path
          = .methodNotAllowed (wrap m.middlewares m.MethodNotAllowed)
              (r.2.2 ++ ["OPTIONS"])) ∨
       (method = "OPTIONS" ∧ serve m method path
          = .preflight (wrap m.middlewares m.Options) (r.2.2 ++ ["OPTIONS"]))) ∧
      (r.2.2 ++ ["OPTIONS"]).getLast? = some "OPTIONS" ∧
      (∀ x, x ∈ r.2.2 ++ ["OPTIONS"] ↔
        ((List.lookup x r.1).isSome = true ∨ x = "OPTIONS")) := by
  intro r hf hl hne
  have hkeys := findHandler_allowed hf
  have hemp : r.2.2.isEmpty = false := by
    rw [hkeys]
    cases hr1 : r.1 with
    | nil => exact absurd hr1 hne
    | cons a l => simp
  refine ⟨?_, ?_, ?_⟩
  · by_cases hm : method = "OPTIONS"
    · refine Or.inr ⟨hm, ?_⟩
      subst hm
      simp [serve, hf, hl, hemp]
    · exact Or.inl ⟨hm, by simp [serve, hf, hl, hemp, hm]⟩
  · exact List.getLast?_concat _
  · intro x
    rw [List.mem_append, List.mem_singleton, hkeys, ← lookup_isSome_iff]

/-- Witness for C7: `POST /x` on a mux binding only `GET /x` yields
method-not-allowed with `Allow` contents `GET, OPTIONS`. -/
theorem c7_witness :
    serve oneRouteMux "POST" "/x" = .methodNotAllowed 101 (["GET"] ++ ["OPTIONS"]) := by
  have hc := (c7_allow_contents oneRouteMux "POST" "/x"
    ([("GET", 1)], [], ["GET"]) (by decide) (by decide) (by decide)).1
  rcases hc with ⟨-, hser⟩ | ⟨hop, -⟩
  · exact hser
  · exact absurd hop (by decide)

/-- C4 counterexample: registering `/:x|[0-9]{2}` attaches the
unanchored constraint to the parameter node; the later registration
`/:x|^[0-9]{2}$` on the same node then carries the anchored constraint —
the first constraint did not stick, refuting "later registrations do not
overwrite". -/
theorem c4_counterexample :
    (findChild (addRoute rxCompileEx [":x|[0-9]{2}"] "GET" 1
        (RouteTree.newRoot (H := Nat))).children "" "x").map RouteTree.rxPattern
      = some (some ⟨false, false, twoDigits⟩) ∧
    (findChild rxTwiceTree.children "" "x").map RouteTree.rxPattern
      = some (some ⟨true, true, twoDigits⟩) ∧
    (Regexp.mk true true twoDigits) ≠ Regexp.mk false false twoDigits := by
  exact ⟨by decide, by decide, by decide⟩

/-- C4 (amended): every registration whose parameter segment supplies a
constraint sets the reused node's constraint to its own compiled
pattern — the last constraint supplied wins, overwriting whatever was
attached before. -/
theorem c4_constraint_last_wins (cmp : String → Regexp) (node : RouteTree H)
    (seg : String) (rest : List String) (method : String) (h : H) (pname t : String)
    (hcolon : startsWithColon seg = true) (hdots : seg ≠ "...")
    (hcut : cutPipe (strTail seg) = (pname, t, true)) :
    ∃ c, findChild (addRoute cmp (seg :: rest) method h node).children "" pname = some c
        ∧ c.rxPattern = some (cmp t) := by
  cases node with
  | mk s0 hs0 cs0 p0 w0 rx0 =>
      simp only [addRoute, if_neg hdots, hcolon, if_true, hcut]
      set child0 := (findChild cs0 "" pname).getD (RouteTree.new "" pname) with hchild0
      have hk0 : child0.segment = "" ∧ child0.paramName = pname := by
        cases hfc : findChild cs0 "" pname with
        | none => simp [hchild0, hfc, RouteTree.new, RouteTree.segment, RouteTree.paramName]
        | some c =>
            obtain ⟨h1, h2, _⟩ := findChild_eq_some hfc
            simp [hchild0, hfc, h1, h2]
      set child2 := if rest.isEmpty then (child0.withRx (some (cmp t))).withHandler method h
        else child0.withRx (some (cmp t)) with hchild2
      have hk2 : child2.segment = "" ∧ child2.paramName = pname := by
        by_cases hr : rest.isEmpty
        · simpa [hchild2, hr, withHandler_segment, withHandler_paramName, withRx_segment,
            withRx_paramName] using hk0
        · simpa [hchild2, hr, withRx_segment, withRx_paramName] using hk0
      have hrx2 : child2.rxPattern = some (cmp t) := by
        by_cases hr : rest.isEmpty
        · simp [hchild2, hr, withHandler_rxPattern, withRx_rxPattern]
        · simp [hchild2, hr, withRx_rxPattern]
      refine ⟨addRoute cmp rest method h child2, ?_, ?_⟩
      · simp only [RouteTree.withChildren, RouteTree.children]
        exact findChild_replaceChild cs0 "" pname _
          (by rw [addRoute_segment]; exact hk2.1)
          (by rw [addRoute_paramName]; exact hk2.2)
      · rw [addRoute_rxPattern]
        exact hrx2

/-- Witness for the amended C4: re-registering `:x` with the anchored
constraint overwrites the unanchored one on the shared node. -/
theorem c4_witness :
    ∃ c, findChild (addRoute rxCompileEx [":x|^[0-9]{2}$"] "GET" 2
        (addRoute rxCompileEx [":x|[0-9]{2}"] "GET" 1
          (RouteTree.newRoot (H := Nat)))).children "" "x" = some c
      ∧ c.rxPattern = some (rxCompileEx "^[0-9]{2}$") :=
  c4_constraint_last_wins rxCompileEx _ ":x|^[0-9]{2}$" [] "GET" 2 "x" "^[0-9]{2}$"
    (by decide) (by decide) (by decide)

/-- C9 counterexample: after registering `GET /a/...` and `GET /b/...`,
the root has two children and both carry the wildcard flag — refuting
"at most one child with the wildcard-terminal flag among a node's
children". -/
theorem c9_counterexample :
    (twoWildcardTree.children.countP fun c => c.isWildcard) = 2 ∧
    ¬((twoWildcardTree.children.countP fun c => c.isWildcard) ≤ 1) := by
  exact ⟨by decide, by decide⟩

/-- C9 (amended): after any sequence of registrations starting from the
fresh root, no node of the tree has two distinct children with the same
`(segment, paramName)` key; in particular wildcard registrations at the
same position reuse one child, though children with different keys may
each carry the wildcard flag. -/
theorem c9_children_keys_unique (cmp : String → Regexp)
    (regs : List (List String × String × H)) :
    keysUnique (registerAll cmp regs) = true := by
  suffices hgen : ∀ t : RouteTree H, keysUnique t = true →
      keysUnique (regs.foldl (fun r q => addRoute cmp q.1 q.2.1 q.2.2 r) t) = true by
    exact hgen RouteTree.newRoot rfl
  induction regs with
  | nil =>
      intro t ht
      exact ht
  | cons q qs ih =>
      intro t ht
      exact ih _ (keysUnique_addRoute cmp q.1 q.2.1 q.2.2 t ht)

/-- C10: every fallback answer runs the corresponding configured handler
wrapped by the middleware chain at serving time; with trace decorators
`11, 12`, the not-found, method-not-allowed and preflight responses are
decorated exactly as a dispatched handler is. -/
theorem c10_fallbacks_wrapped :
    (∀ (H : Type) (m : Mux H) (method path : String),
       match serve m method path with
       | .dispatch _ _ => True
       | .notFound h => h = wrap m.middlewares m.NotFound
       | .methodNotAllowed h _ => h = wrap m.middlewares m.MethodNotAllowed
       | .preflight h _ => h = wrap m.middlewares m.Options) ∧
    serve demoMux "GET" "/nope" = .notFound [11, 12, 0] ∧
    serve demoMux "POST" "/x" = .methodNotAllowed [11, 12, 1] ["GET", "HEAD", "OPTIONS"] ∧
    serve demoMux "OPTIONS" "/x" = .preflight [11, 12, 2] ["GET", "HEAD", "OPTIONS"] ∧
    serve demoMux "GET" "/x" = .dispatch [11, 12, 9] [] := by
  refine ⟨?_, by decide, by decide, by decide, by decide⟩
  intro H m method path
  simp only [serve]
  cases hf : findHandler m.root (pathSegs path) [] with
  | none => simp
  | some r =>
      cases hl : List.lookup method r.1 with
      | some hh => simp [hl]
      | none =>
          simp only [hl]
          by_cases he : r.2.2.isEmpty = true <;> by_cases hm : method = "OPTIONS" <;>
            simp [he, hm]

end Flow
